import Mathlib

/-
Shallow embedding of the ftree repository (Go): an N-dimensional subdividing
spatial tree ("ntree").  Sources: src/ntree.go and src/point.go.

Modelling conventions:
* Go float64 coordinates are modelled as exact rationals (ℚ).  The geometric
  operations used by the code (comparison, +, -, division by 2) are exact on
  the inputs the claims quantify over.
* Go `*Point` is `Option Point`; a nil pointer is `none`.
* The children field has Go type `[]*NTree`: a slice of possibly-nil
  pointers.  It is modelled as `List (Option NTree)`; Go's nil slice is the
  empty list (the code never allocates an empty non-nil children slice,
  since the allocated size `2^n mod (2^63-1)` is at least 1).
* `count` has Go type uint64 and is modelled as `Nat`.  The single decrement
  the code performs (ntree.go line 212) is modelled with truncated
  subtraction; in Go a decrement of 0 would wrap, but the code only
  decrements a node that holds a point, whose count is at least 1 in every
  state the code itself produces.
* Functions that mutate the tree in place in Go return the resulting tree
  here.  `add` returns `(new tree state, optional error)`; the Go method
  returns only the error and mutates the receiver.  Unbounded recursion in
  `Add` (re-insertion after a split) is modelled with explicit fuel:
  a `none` result means the fuel was exhausted (the Go code recursing
  forever / overflowing the stack on coincident points).
* A Go panic (index out of range, nil dereference) is modelled as an error
  result whose message starts with "panic:".
-/

/-- SpatialPoint (src/point.go lines 4-8): coordinates plus an opaque payload
reference.  The payload pointer `Data *interface\x7b\x7d` is modelled as an
optional opaque tag. -/
structure Point where
  coords : List ℚ
  data : Option Nat
deriving DecidableEq, Repr

/-- NTree (src/ntree.go lines 22-36): center and bounds of the covered box, an
optional point, a children slice, and an approximate subtree point count.
The mutex field coordinates concurrency only and carries no data; lock
behaviour is modelled separately by the lock-instrumentation functions
below. -/
inductive NTree : Type where
  | mk (center : List ℚ) (bounds : List ℚ) (p : Option Point)
       (children : List (Option NTree)) (count : Nat) : NTree

def NTree.center : NTree → List ℚ
  | .mk c _ _ _ _ => c

def NTree.bounds : NTree → List ℚ
  | .mk _ b _ _ _ => b

/-- The Point() getter (ntree.go lines 104-108). -/
def NTree.point : NTree → Option Point
  | .mk _ _ p _ _ => p

def NTree.children : NTree → List (Option NTree)
  | .mk _ _ _ ch _ => ch

/-- The Count() getter (ntree.go lines 111-115). -/
def NTree.count : NTree → Nat
  | .mk _ _ _ _ n => n

/-- N (ntree.go lines 68-70): the dimensionality, `len(nt.center)`. -/
def NTree.N (t : NTree) : Nat := t.center.length

/-- BoundPoints (ntree.go lines 89-99): per-dimension min and max corners
`center[i] - bounds[i]` and `center[i] + bounds[i]`. -/
def NTree.boundPoints (t : NTree) : List ℚ × List ℚ :=
  (List.zipWith (fun c b => c - b) t.center t.bounds,
   List.zipWith (fun c b => c + b) t.center t.bounds)

/-- MaxN (ntree.go line 18). -/
def MaxN : Nat := 63

/-- New (ntree.go lines 45-65), with the checks in source order.  Error
strings are abbreviated but one-to-one with the source's errors. -/
def New (center bounds : List ℚ) : Except String NTree :=
  if center.length > MaxN then
    .error "64 bit ints limit this library to <= 63 dimensions"
  else if center.length ≠ bounds.length then
    .error "center and bounds have mismatched lengths"
  else if center.length = 0 then
    .error "cannot have 0-dimensional ntree"
  else if bounds.any fun b => b ≤ 0 then
    .error "dimension has bounding size <= 0"
  else
    .ok (.mk center bounds none [] 0)

/-- The containment loop of Contains (ntree.go lines 130-134): iterate over
the point's coordinates, comparing against `center[i] +- bounds[i]`.
Arguments: center, bounds, coords.  If center or bounds is shorter than
coords the Go code would panic on the index; that case is unreachable after
the dimension check and is mapped to `true` here. -/
def inBoundsLoop : List ℚ → List ℚ → List ℚ → Bool
  | _, _, [] => true
  | cn :: cns, b :: bs, x :: xs =>
    if cn - b > x || cn + b < x then false else inBoundsLoop cns bs xs
  | _, _, _ => true

/-- Contains (ntree.go lines 119-136): nil check first, then the dimension
check against N(), then the per-dimension closed-interval test. -/
def contains (t : NTree) (p : Option Point) : Except String Bool :=
  match p with
  | none => .error "Point is nil"
  | some q =>
    if q.coords.length ≠ t.N then
      .error "Point dimensionality differs from NTree dimensionality"
    else
      .ok (inBoundsLoop t.center t.bounds q.coords)

/-- hasBit (ntree.go lines 141-144): `n & (1 << pos) > 0`. -/
def hasBit (n pos : Nat) : Bool := decide (n &&& (1 <<< pos) > 0)

/-- setBit (ntree.go lines 146-149): `n | (1 << pos)`. -/
def setBit (n pos : Nat) : Nat := n ||| (1 <<< pos)

/-- The child-addressing loop of Add (ntree.go lines 172-177): bit j of the
result is set exactly when `p.Coords[j] > nt.center[j]`.  Arguments:
accumulator, current index j, center, coords.  A coords list shorter than
center would panic in Go (unreachable after Contains). -/
def childIndexAux : Nat → Nat → List ℚ → List ℚ → Nat
  | acc, _, [], _ => acc
  | acc, j, cn :: cns, x :: xs =>
    childIndexAux (if x > cn then setBit acc j else acc) (j + 1) cns xs
  | acc, _, _ :: _, [] => acc

def childIndex (center coords : List ℚ) : Nat := childIndexAux 0 0 center coords

/-- The child-geometry loop of Add (ntree.go lines 191-203): for child index
i, each dimension j gets half the parent bound, and the child center is
offset up or down by that half-bound according to bit j of i.  Arguments:
child index i, current dimension j, parent center, parent bounds.  Returns
(child center, child bounds).  A bounds list shorter than center would
panic in Go (unreachable for nodes made by New). -/
def childGeomAux (i : Nat) : Nat → List ℚ → List ℚ → List ℚ × List ℚ
  | _, [], _ => ([], [])
  | j, cn :: cns, b :: bs =>
    let nb := b / 2
    let rest := childGeomAux i (j + 1) cns bs
    ((if hasBit i j then cn + nb else cn - nb) :: rest.1, nb :: rest.2)
  | _, _ :: _, [] => ([], [])

def childGeom (i : Nat) (center bounds : List ℚ) : List ℚ × List ℚ :=
  childGeomAux i 0 center bounds

/-- The child count computed at ntree.go line 186:
`mathutil.ModPowUint64(2, uint64(nt.N()), mathutil.MaxInt)` is
`2^N mod MaxInt` with `MaxInt = 2^63 - 1` on a 64-bit platform. -/
def splitSize (n : Nat) : Nat := 2 ^ n % (2 ^ 63 - 1)

/-- The child-allocation loop of Add (ntree.go lines 187-207).  Go first
assigns `nt.children = make([]*NTree, size)` (all nil), then fills entries
in order; if New fails for some entry the method returns at once (line
205), leaving that entry and all later ones nil.  Arguments: parent center
and bounds, first index i, number of remaining entries.  Returns the
children slice as Go leaves it, plus the error if any. -/
def allocLoop (center bounds : List ℚ) : Nat → Nat → List (Option NTree) × Option String
  | _, 0 => ([], none)
  | i, k + 1 =>
    match New (childGeom i center bounds).1 (childGeom i center bounds).2 with
    | .error e => (List.replicate (k + 1) none, some e)
    | .ok c =>
      let rest := allocLoop center bounds (i + 1) k
      (some c :: rest.1, rest.2)

/-- The split prefix of Add (ntree.go lines 185-213): allocate the children;
on success clear the node's point and decrement its count (the state
published when the mutex is released at line 213, before the two recursive
re-insertions); on failure return with the point still set and the
partially allocated children slice (line 205 returns without any rollback). -/
def splitAllocState (t : NTree) : NTree × Option String :=
  match t with
  | .mk center bounds pt _ cnt =>
    let res := allocLoop center bounds 0 (splitSize center.length)
    match res.2 with
    | some e => (.mk center bounds pt res.1 cnt, some e)
    | none => (.mk center bounds none res.1 (cnt - 1), none)

/-- Add (ntree.go lines 153-221).  Returns `none` when the fuel runs out
(modelling the unbounded recursive splitting the code performs on
coincident points), otherwise the resulting tree state together with the
returned error (`none` = success).  The three Go cases
`p == nil && children == nil` / `children != nil` /
`p != nil && children == nil` are matched in source order. -/
def add : Nat → NTree → Option Point → Option (NTree × Option String)
  | 0, _, _ => none
  | fuel + 1, t, p =>
    match contains t p with
    | .error e => some (t, some e)
    | .ok false => some (t, some "Point does not fall within bounds of NTree.")
    | .ok true =>
      match p, t with
      | none, t2 => some (t2, some "Point is nil")
      | some q, .mk center bounds pt ch cnt =>
        match ch, pt with
        | [], none =>
          -- simplest case, add to current node (lines 162-168)
          some (.mk center bounds (some q) [] (cnt + 1), none)
        | c0 :: crest, pt2 =>
          -- recurse into children by child bitmask (lines 169-183);
          -- the mutex is released only when this case returns (defer)
          let ch2 := c0 :: crest
          let target := childIndex center q.coords
          match ch2.get? target with
          | none =>
            some (.mk center bounds pt2 ch2 cnt, some "panic: index out of range")
          | some none =>
            some (.mk center bounds pt2 ch2 cnt, some "panic: nil pointer dereference")
          | some (some child) =>
            match add fuel child (some q) with
            | none => none
            | some (child2, some e) =>
              some (.mk center bounds pt2 (ch2.set target (some child2)) cnt, some e)
            | some (child2, none) =>
              some (.mk center bounds pt2 (ch2.set target (some child2)) (cnt + 1), none)
        | [], some curP =>
          -- split (lines 184-219)
          let sp := splitAllocState (.mk center bounds (some curP) [] cnt)
          match sp.2 with
          | some e => some (sp.1, some e)
          | none =>
            match add fuel sp.1 (some curP) with
            | none => none
            | some (t2, some e) => some (t2, some e)
            | some (t2, none) => add fuel t2 (some q)

/-- A sequence of insertions, each performed with the given fuel; stops at
the first failure. -/
def addSeq (fuel : Nat) : NTree → List Point → Option (NTree × Option String)
  | t, [] => some (t, none)
  | t, q :: qs =>
    match add fuel t (some q) with
    | none => none
    | some (t2, some e) => some (t2, some e)
    | some (t2, none) => addSeq fuel t2 qs

/-- The leaf range test of Search (point.go lines 40-44): the stored point
matches when every coordinate lies in the closed interval; the loop runs
over the point's coordinates.  Arguments: coords, p1 (lower), p2 (upper).
If p1/p2 is shorter than coords the Go code would panic (unreachable after
the dimension check). -/
def pointInRange : List ℚ → List ℚ → List ℚ → Bool
  | [], _, _ => true
  | x :: xs, a :: la, b :: lb =>
    if x < a || x > b then false else pointInRange xs la lb
  | _, _, _ => true

mutual

/-- Search (point.go lines 32-67).  The dimension check, then leaf and
internal cases.  The child pruning loop at lines 51-58 is intentionally
absent: its `continue` statement targets the inner dimension loop, so the
loop has no effect and every (non-nil) child is recursed into
unconditionally; `childOutside` below models the test that loop computes,
and `searchCalls` counts the recursions actually performed. -/
def search : NTree → List ℚ → List ℚ → Except String (List Point)
  | .mk center _ pt ch _, p1, p2 =>
    if p1.length ≠ p2.length ∨ p2.length ≠ center.length then
      .error "Bounding points have different dimensions than tree."
    else if ch.isEmpty then
      match pt with
      | some q => if pointInRange q.coords p1 p2 then .ok [q] else .ok []
      | none => .ok []
    else searchChildren ch p1 p2
termination_by structural t => t

/-- The child loop of Search (point.go lines 50-64): recurse into each child
in order, aborting on the first error; append the results.  A nil child
entry would make Go panic when its fields are read. -/
def searchChildren : List (Option NTree) → List ℚ → List ℚ → Except String (List Point)
  | [], _, _ => .ok []
  | none :: _, _, _ => .error "panic: nil pointer dereference"
  | some c :: rest, p1, p2 =>
    match search c p1 p2 with
    | .error e => .error e
    | .ok l =>
      match searchChildren rest p1 p2 with
      | .error e => .error e
      | .ok l2 => .ok (l ++ l2)
termination_by structural l => l

end

/-- The per-child skip test computed by the dead pruning loop of Search
(point.go lines 51-57): some dimension i has the child's covered interval
`[s1, s2]` entirely below `p1[i]` or entirely above `p2[i]`.  Arguments:
p1, p2, child center, child bounds. -/
def childOutsideLoop : List ℚ → List ℚ → List ℚ → List ℚ → Bool
  | a :: la, b :: lb, cn :: cns, bd :: bds =>
    let s1 := cn - bd
    let s2 := cn + bd
    if (s1 < a && s2 < a) || (s1 > b && s2 > b) then true
    else childOutsideLoop la lb cns bds
  | _, _, _, _ => false

def childOutside (child : NTree) (p1 p2 : List ℚ) : Bool :=
  childOutsideLoop p1 p2 child.center child.bounds

mutual

/-- Observation function: the points stored in the tree, in the order Search
visits them.  A node with children holds no live point of its own (the
internal-node case ignores the point field, exactly as Search does). -/
def treePoints : NTree → List Point
  | .mk _ _ pt ch _ =>
    if ch.isEmpty then
      match pt with
      | some q => [q]
      | none => []
    else treePointsChildren ch
termination_by structural t => t

def treePointsChildren : List (Option NTree) → List Point
  | [] => []
  | none :: rest => treePointsChildren rest
  | some c :: rest => treePoints c ++ treePointsChildren rest
termination_by structural l => l

end

mutual

/-- Well-formedness n t: every node has center and bounds of length n, every
stored point has n coordinates, and every children entry is a non-nil
well-formed tree.  These facts hold for every tree the code builds through
New and Add and are exactly what Search's per-node dimension checks and
child dereferences rely on. -/
def wfB (n : Nat) : NTree → Bool
  | .mk c b pt ch _ =>
    (c.length == n) && (b.length == n) &&
    (pt.all fun q => q.coords.length == n) && wfChildren n ch
termination_by structural t => t

def wfChildren (n : Nat) : List (Option NTree) → Bool
  | [] => true
  | none :: _ => false
  | some c :: rest => wfB n c && wfChildren n rest
termination_by structural l => l

end

mutual

/-- Exact-count predicate: every node's count equals the number of points in
its subtree.  This is the invariant each completed sequential insertion
maintains. -/
def countsB : NTree → Bool
  | .mk c b pt ch cnt =>
    (cnt == (treePoints (.mk c b pt ch cnt)).length) && countsChildren ch
termination_by structural t => t

def countsChildren : List (Option NTree) → Bool
  | [] => true
  | none :: rest => countsChildren rest
  | some c :: rest => countsB c && countsChildren rest
termination_by structural l => l

end

mutual

/-- Lock instrumentation for Search: the number of read locks simultaneously
held at the deepest moment of the call.  Search takes `nt.mutex.RLock()`
with a deferred unlock (point.go lines 33-34), so the node's read lock is
still held during every recursive child call. -/
def searchLockMax : NTree → List ℚ → List ℚ → Nat
  | .mk center _ _ ch _, p1, p2 =>
    if p1.length ≠ p2.length ∨ p2.length ≠ center.length then 1
    else if ch.isEmpty then 1
    else 1 + searchLockChildren ch p1 p2
termination_by structural t => t

def searchLockChildren : List (Option NTree) → List ℚ → List ℚ → Nat
  | [], _, _ => 0
  | none :: _, _, _ => 0
  | some c :: rest, p1, p2 =>
    match search c p1 p2 with
    | .error _ => searchLockMax c p1 p2
    | .ok _ => Nat.max (searchLockMax c p1 p2) (searchLockChildren rest p1 p2)
termination_by structural l => l

end

mutual

/-- Call instrumentation for Search: how many nodes Search is invoked on.
Because the pruning loop is a no-op (point.go line 56's `continue` binds to
the inner loop), every non-nil child is visited whatever the query is. -/
def searchCalls : NTree → List ℚ → List ℚ → Nat
  | .mk center _ _ ch _, p1, p2 =>
    if p1.length ≠ p2.length ∨ p2.length ≠ center.length then 1
    else if ch.isEmpty then 1
    else 1 + searchCallsChildren ch p1 p2
termination_by structural t => t

def searchCallsChildren : List (Option NTree) → List ℚ → List ℚ → Nat
  | [], _, _ => 0
  | none :: _, _, _ => 0
  | some c :: rest, p1, p2 =>
    match search c p1 p2 with
    | .error _ => searchCalls c p1 p2
    | .ok _ => searchCalls c p1 p2 + searchCallsChildren rest p1 p2
termination_by structural l => l

end

/-- Lock instrumentation for Add: the number of locks simultaneously held at
the deepest moment of the call (counting the locks this call acquires and,
transitively, those its recursive calls acquire while the caller's are
still held).  Contains takes and releases the node's read lock first; the
exclusive lock taken at ntree.go line 161 is released by a defer in the
leaf and children cases (so it is held during the recursive child Add of
line 178), and released manually at line 213 in the split case before the
two re-insertions.  Returns `none` when the fuel runs out. -/
def addLockMax : Nat → NTree → Option Point → Option Nat
  | 0, _, _ => none
  | fuel + 1, t, p =>
    match contains t p with
    | .error _ => some 1
    | .ok false => some 1
    | .ok true =>
      match p, t with
      | none, _ => some 1
      | some q, .mk center bounds pt ch cnt =>
        match ch, pt with
        | [], none => some 1
        | c0 :: crest, _ =>
          let ch2 := c0 :: crest
          match ch2.get? (childIndex center q.coords) with
          | none => some 1
          | some none => some 1
          | some (some child) =>
            match addLockMax fuel child (some q) with
            | none => none
            | some m => some (1 + m)
        | [], some curP =>
          let sp := splitAllocState (.mk center bounds (some curP) [] cnt)
          match sp.2 with
          | some _ => some 1
          | none =>
            match add fuel sp.1 (some curP) with
            | none => none
            | some (_, some _) =>
              match addLockMax fuel sp.1 (some curP) with
              | none => none
              | some m => some (Nat.max 1 m)
            | some (t2, none) =>
              match addLockMax fuel sp.1 (some curP), addLockMax fuel t2 (some q) with
              | some m1, some m2 => some (Nat.max 1 (Nat.max m1 m2))
              | _, _ => none

/-- Modelled from the spec (section 4.3): the closed-box membership predicate
the specification states Search against: every coordinate of the point lies
within the corresponding closed interval [lower[i], upper[i]].  This is the
spec-side definition used for the refinement comparison in the range-search
claims; `pointInRange` above is the code-side test. -/
def specInRange (lower upper coords : List ℚ) : Bool :=
  decide (∀ i, i < coords.length →
    lower.getD i 0 ≤ coords.getD i 0 ∧ coords.getD i 0 ≤ upper.getD i 0)

/-
Concrete sample states used by the closed theorems below.  All but `tBad`
are reachable by New followed by successful Add calls (proved where used);
`tBad` is the rational-arithmetic rendering of the state Go reaches when
repeated halving has driven a bound to zero (float64 subnormal underflow),
which is what makes the child-allocation error path reachable.
-/

def qLow : Point := ⟨[-1/2], none⟩

def qHigh : Point := ⟨[1/2], none⟩

def root1 : NTree := .mk [0] [1] none [] 0

def lowChildT : NTree := .mk [-1/2] [1/2] (some qLow) [] 1

def highChildT : NTree := .mk [1/2] [1/2] (some qHigh) [] 1

def tSplit : NTree := .mk [0] [1] none [some lowChildT, some highChildT] 2

def tLeaf1 : NTree := .mk [0] [1] (some qLow) [] 1

def tBad : NTree := .mk [0] [0] (some ⟨[0], none⟩) [] 1

def tBadAfter : NTree := .mk [0] [0] (some ⟨[0], none⟩) [none, none] 1

def p63 : Point := ⟨List.replicate 63 0, none⟩

def q63 : Point := ⟨List.replicate 63 (1/2), none⟩

def t63 : NTree := .mk (List.replicate 63 0) (List.replicate 63 1) (some p63) [] 1

def t63lower : NTree :=
  .mk (List.replicate 63 (-1/2)) (List.replicate 63 (1/2)) (some p63) [] 1

def t63after : NTree := .mk (List.replicate 63 0) (List.replicate 63 1) none [some t63lower] 1

/-- C9: calling Contains with a nil point returns the "Point is nil" error
rather than dereferencing it, and an insertion of a nil point returns the
same error and leaves the tree exactly unchanged. -/
theorem c9_nil_point_error (t : NTree) (fuel : Nat) :
    contains t none = .error "Point is nil" ∧
    add (fuel + 1) t none = some (t, some "Point is nil") := by
  exact ⟨rfl, rfl⟩

/-- C2: the pruning described by the spec never happens.  `tSplit` is the
tree reached from a fresh 1-dimensional root by inserting the two sample
points; for the query [1/2, 1] the lower child's covered interval [-1, 0]
satisfies the code's own per-dimension skip test (`childOutside`), yet
Search is still invoked on all three nodes (`searchCalls` = 3; a search
that skipped the disqualified child would invoke it on 2).  The `continue`
at point.go line 56 targets the inner dimension loop, so no child is ever
skipped. -/
theorem c2_pruning_never_skips :
    addSeq 5 root1 [qLow, qHigh] = some (tSplit, none) ∧
    childOutside lowChildT [1/2] [1] = true ∧
    searchCalls tSplit [1/2] [1] = 3 := by
  refine ⟨?_, ?_, ?_⟩ <;> with_unfolding_all rfl

/-- C7: at the maximum supported dimensionality 63, a split creates exactly
one child, not 2^63: ntree.go line 186 computes the child count as
`2^N mod (2^63 - 1)`, which wraps to 1 at N = 63.  The tree `t63` is
reachable (constructed by New, then one successful insertion); its split
allocates a single child, and inserting a second point whose child bitmask
is nonzero then indexes past the one-element slice (a Go panic). -/
theorem c7_split63_one_child :
    New (List.replicate 63 0) (List.replicate 63 1) =
      .ok (.mk (List.replicate 63 0) (List.replicate 63 1) none [] 0) ∧
    add 2 (.mk (List.replicate 63 0) (List.replicate 63 1) none [] 0) (some p63) =
      some (t63, none) ∧
    splitSize t63.N = 1 ∧
    (splitAllocState t63).2 = none ∧
    (splitAllocState t63).1.children.length = 1 ∧
    1 ≠ 2 ^ 63 ∧
    add 3 t63 (some q63) = some (t63after, some "panic: index out of range") := by
  refine ⟨?_, ?_, ?_, ?_, ?_, by omega, ?_⟩ <;> with_unfolding_all rfl

/-- C3 counterexample: a single insertion into the reachable occupied leaf
`tLeaf1` (count 1) succeeds, and on the way publishes the split state of
ntree.go lines 210-213 — point cleared, count decremented to 0 — before the
re-insertions restore it.  A node's count therefore does decrease at an
intermediate step of an insertion, contradicting the claim. -/
theorem c3_count_decreases_counterexample :
    add 5 root1 (some qLow) = some (tLeaf1, none) ∧
    add 5 tLeaf1 (some qHigh) = some (tSplit, none) ∧
    (splitAllocState tLeaf1).2 = none ∧
    (splitAllocState tLeaf1).1.count = 0 ∧
    tLeaf1.count = 1 := by
  refine ⟨?_, ?_, ?_, ?_, ?_⟩ <;> with_unfolding_all rfl

/-- Helper: the lock instrumentation never reports fewer than one held lock
for a completed call (every Add begins by taking the node's own lock). -/
theorem addLockMax_pos (fuel : Nat) (t : NTree) (p : Option Point) (m : Nat)
    (h : addLockMax fuel t p = some m) : 1 ≤ m := by
  cases fuel with
  | zero => simp [addLockMax] at h
  | succ n =>
    rcases t with ⟨center, bounds, pt, ch, cnt⟩
    rcases p with _ | q <;> rcases ch with _ | ⟨c0, crest⟩ <;>
      rcases pt with _ | curP <;> simp only [addLockMax] at h
    all_goals repeat' split at h
    all_goals
      first
        | exact Option.noConfusion h
        | (injection h with h; omega)
        | (injection h with h; exact le_of_le_of_eq (Nat.le_max_left 1 _) h)

/-- C5 counterexample: on the reachable tree `tSplit`, inserting the
in-bounds point 3/4 holds three locks simultaneously at its deepest moment
(root lock kept by the defer across the child recursion, which itself
splits), and a full-volume search holds two read locks simultaneously —
both contradict the claim that no operation ever holds more than one
node's lock at a time. -/
theorem c5_lock_counterexample :
    addSeq 5 root1 [qLow, qHigh] = some (tSplit, none) ∧
    addLockMax 5 tSplit (some ⟨[3/4], none⟩) = some 3 ∧
    searchLockMax tSplit [-1] [1] = 2 := by
  refine ⟨?_, ?_, ?_⟩ <;> with_unfolding_all rfl

/-- C5 amended: insertion does NOT release the node's exclusive lock before
recursing into the addressed child — the deferred unlock of ntree.go line
170 runs only when the call returns, so the child insertion executes with
the parent's lock still held and the maximum number of simultaneously held
locks is one more than the child's, hence at least two on every descent. -/
theorem c5_locks_nested_amended (fuel : Nat) (center bounds : List ℚ)
    (pt : Option Point) (c0 : Option NTree) (crest : List (Option NTree))
    (cnt : Nat) (q : Point) (child : NTree) (m : Nat)
    (hc : contains (.mk center bounds pt (c0 :: crest) cnt) (some q) = .ok true)
    (hget : (c0 :: crest).get? (childIndex center q.coords) = some (some child))
    (hm : addLockMax fuel child (some q) = some m) :
    addLockMax (fuel + 1) (.mk center bounds pt (c0 :: crest) cnt) (some q) =
      some (1 + m) ∧ 2 ≤ 1 + m := by
  have h1 := addLockMax_pos fuel child (some q) m hm
  refine ⟨?_, by omega⟩
  simp only [addLockMax, hc, hget, hm]

theorem c5_locks_nested_amended_witness :
    addLockMax 5 (.mk [0] [1] none (some lowChildT :: [some highChildT]) 2)
      (some ⟨[3/4], none⟩) = some (1 + 2) ∧ 2 ≤ 1 + 2 :=
  c5_locks_nested_amended 4 [0] [1] none (some lowChildT) [some highChildT] 2
    ⟨[3/4], none⟩ highChildT 2 (by with_unfolding_all rfl)
    (by with_unfolding_all rfl) (by with_unfolding_all rfl)

/-- C4 counterexample: on `tBad` (center [0], bound [0], occupied — the
rational rendering of the state float64 underflow produces in Go), the
second insertion triggers a split whose child allocation fails; Add
returns the construction error, but the node is left with its point still
set and a two-entry children slice of nil pointers — not the state it was
in before the call (its children field was nil). -/
theorem c4_failed_split_counterexample :
    add 3 tBad (some ⟨[0], none⟩) =
      some (tBadAfter, some "dimension has bounding size <= 0") ∧
    tBad.children = [] ∧
    tBadAfter.children.length = 2 ∧
    tBadAfter.point = tBad.point := by
  refine ⟨?_, ?_, ?_, ?_⟩ <;> with_unfolding_all rfl

/-- C4 amended: an insertion that fails validation (nil point, dimension
mismatch, or out-of-bounds point) returns the error and leaves the tree
exactly as it was; a construction error during split allocation also
aborts with the error but leaves the partially-allocated children in
place, as the counterexample shows. -/
theorem c4_validation_failure_amended (fuel : Nat) (t : NTree) (p : Option Point)
    (h : (∃ e, contains t p = .error e) ∨ contains t p = .ok false) :
    ∃ e, add (fuel + 1) t p = some (t, some e) := by
  rcases h with ⟨e, he⟩ | he
  · exact ⟨e, by simp only [add, he]⟩
  · exact ⟨"Point does not fall within bounds of NTree.", by simp only [add, he]⟩

theorem c4_validation_failure_amended_witness :
    ∃ e, add 1 root1 (some ⟨[5], none⟩) = some (root1, some e) :=
  c4_validation_failure_amended 0 root1 (some ⟨[5], none⟩)
    (Or.inr (by with_unfolding_all rfl))

/-- C6: construction succeeds for every dimensionality 1..63 with
equal-length center and strictly positive bounds, returning a leaf with no
point, no children, count 0, reporting that dimensionality; and it fails
exactly when the lengths differ, the dimensionality is 0 or exceeds 63, or
some bound is nonpositive. -/
theorem c6_construct_iff (center bounds : List ℚ) :
    ((center.length = bounds.length ∧ 1 ≤ center.length ∧ center.length ≤ 63 ∧
        ∀ b ∈ bounds, 0 < b) →
      New center bounds = .ok (.mk center bounds none [] 0) ∧
      (NTree.mk center bounds none [] 0).N = center.length) ∧
    ((∃ e, New center bounds = .error e) ↔
      center.length ≠ bounds.length ∨ center.length = 0 ∨ 63 < center.length ∨
        ∃ b ∈ bounds, b ≤ 0) := by
  constructor
  · rintro ⟨h1, h2, h3, h4⟩
    have hany : (bounds.any fun b => b ≤ 0) = false := by
      simp only [List.any_eq_false, decide_eq_true_eq]
      intro b hb
      exact not_le.mpr (h4 b hb)
    unfold New MaxN
    rw [if_neg (by omega), if_neg (by omega), if_neg (by omega),
      if_neg (by simp [hany])]
    exact ⟨rfl, rfl⟩
  · constructor
    · rintro ⟨e, he⟩
      unfold New MaxN at he
      split_ifs at he with h1 h2 h3 h4
      case _ => right; right; left; omega
      case _ => left; exact h2
      case _ => right; left; exact h3
      case _ => right; right; right
                simpa only [List.any_eq_true, decide_eq_true_eq] using h4
    · intro h
      unfold New MaxN
      split_ifs with h1 h2 h3 h4
      · exact ⟨_, rfl⟩
      · exact ⟨_, rfl⟩
      · exact ⟨_, rfl⟩
      · exact ⟨_, rfl⟩
      · exfalso
        rcases h with h | h | h | ⟨b, hb, hble⟩
        · exact h2 h
        · exact h3 h
        · exact h1 h
        · exact h4 (by simpa only [List.any_eq_true, decide_eq_true_eq] using ⟨b, hb, hble⟩)

theorem c6_construct_iff_witness :
    (([0, 0] : List ℚ).length = ([1, 1] : List ℚ).length ∧
      1 ≤ ([0, 0] : List ℚ).length ∧ ([0, 0] : List ℚ).length ≤ 63 ∧
      ∀ b ∈ ([1, 1] : List ℚ), 0 < b) ∧
    New [0, 0] [1, 1] = .ok (.mk [0, 0] [1, 1] none [] 0) ∧
    (NTree.mk ([0, 0] : List ℚ) [1, 1] none [] 0).N = ([0, 0] : List ℚ).length := by
  have hpre : ([0, 0] : List ℚ).length = ([1, 1] : List ℚ).length ∧
      1 ≤ ([0, 0] : List ℚ).length ∧ ([0, 0] : List ℚ).length ≤ 63 ∧
      ∀ b ∈ ([1, 1] : List ℚ), 0 < b := by
    refine ⟨rfl, by decide, by decide, ?_⟩
    intro b hb
    simp only [List.mem_cons, List.not_mem_nil, or_false] at hb
    rcases hb with h | h <;> (rw [h]; norm_num)
  exact ⟨hpre, (c6_construct_iff [0, 0] [1, 1]).1 hpre⟩

theorem treePoints_leaf_some (c b : List ℚ) (q : Point) (cnt : Nat) :
    treePoints (.mk c b (some q) [] cnt) = [q] := rfl

theorem treePoints_leaf_none (c b : List ℚ) (cnt : Nat) :
    treePoints (.mk c b none [] cnt) = [] := rfl

theorem treePoints_internal (c b : List ℚ) (pt : Option Point) (c0 : Option NTree)
    (crest : List (Option NTree)) (cnt : Nat) :
    treePoints (.mk c b pt (c0 :: crest) cnt) = treePointsChildren (c0 :: crest) := by
  cases pt <;> rfl

theorem treePointsChildren_cons (oc : Option NTree) (l : List (Option NTree)) :
    treePointsChildren (oc :: l) =
      (match oc with | none => [] | some c => treePoints c) ++ treePointsChildren l := by
  cases oc <;> rfl

/-- New succeeds only with the fresh-leaf node over its own arguments. -/
theorem New_ok_facts (center bounds : List ℚ) (t : NTree)
    (h : New center bounds = .ok t) :
    t = .mk center bounds none [] 0 ∧ center.length = bounds.length ∧
    1 ≤ center.length ∧ center.length ≤ 63 ∧ ∀ b ∈ bounds, 0 < b := by
  unfold New MaxN at h
  split_ifs at h with h1 h2 h3 h4
  refine ⟨by cases h; rfl, by omega, by omega, by omega, ?_⟩
  intro b hb
  by_contra hle
  exact h4 (by simpa only [List.any_eq_true, decide_eq_true_eq]
    using ⟨b, hb, le_of_not_lt hle⟩)

/-- A successful Contains check pins the point's dimensionality and, when it
returns true, the containment loop. -/
theorem contains_ok_facts (t : NTree) (q : Point) (b : Bool)
    (h : contains t (some q) = .ok b) :
    q.coords.length = t.N ∧ inBoundsLoop t.center t.bounds q.coords = b := by
  simp only [contains] at h
  split_ifs at h with h1
  exact ⟨by omega, by cases h; rfl⟩

theorem splitAlloc_ok (center bounds : List ℚ) (pt : Option Point)
    (ch : List (Option NTree)) (cnt : Nat)
    (h : (allocLoop center bounds 0 (splitSize center.length)).2 = none) :
    splitAllocState (.mk center bounds pt ch cnt) =
      (.mk center bounds none (allocLoop center bounds 0 (splitSize center.length)).1
        (cnt - 1), none) := by
  simp only [splitAllocState, h]

theorem splitAlloc_err (center bounds : List ℚ) (pt : Option Point)
    (ch : List (Option NTree)) (cnt : Nat) (e : String)
    (h : (allocLoop center bounds 0 (splitSize center.length)).2 = some e) :
    splitAllocState (.mk center bounds pt ch cnt) =
      (.mk center bounds pt (allocLoop center bounds 0 (splitSize center.length)).1 cnt,
        some e) := by
  simp only [splitAllocState, h]

theorem allocLoop_length (center bounds : List ℚ) :
    ∀ (k i : Nat), (allocLoop center bounds i k).1.length = k := by
  intro k
  induction k with
  | zero => intro i; rfl
  | succ m ih =>
    intro i
    simp only [allocLoop]
    split <;> simp_all

/-- When the allocation loop succeeds, every produced entry is a fresh leaf
with the geometry of some child index. -/
theorem allocLoop_ok_mem (center bounds : List ℚ) :
    ∀ (k i : Nat) (oc : Option NTree),
      (allocLoop center bounds i k).2 = none →
      oc ∈ (allocLoop center bounds i k).1 →
      ∃ j, oc = some (.mk (childGeom j center bounds).1 (childGeom j center bounds).2
        none [] 0) := by
  intro k
  induction k with
  | zero => intro i oc _ hm; simp [allocLoop] at hm
  | succ m ih =>
    intro i oc he hm
    rcases hnew : New (childGeom i center bounds).1 (childGeom i center bounds).2 with e | c
    · simp only [allocLoop, hnew] at he
      exact Option.noConfusion he
    · simp only [allocLoop, hnew] at he hm
      rcases List.mem_cons.mp hm with h1 | h1
      · obtain ⟨hshape, -⟩ := New_ok_facts _ _ _ hnew
        exact ⟨i, by rw [h1, hshape]⟩
      · exact ih (i + 1) oc he h1

theorem childGeomAux_len (i : Nat) :
    ∀ (center bounds : List ℚ) (j : Nat),
      (childGeomAux i j center bounds).1.length = min center.length bounds.length ∧
      (childGeomAux i j center bounds).2.length = min center.length bounds.length := by
  intro center
  induction center with
  | nil => intro bounds j; simp [childGeomAux]
  | cons cn cns ih =>
    intro bounds j
    cases bounds with
    | nil => simp [childGeomAux]
    | cons bd bds =>
      obtain ⟨ih1, ih2⟩ := ih bds (j + 1)
      simp only [childGeomAux, List.length_cons, ih1, ih2]
      omega

theorem childGeom_len (i : Nat) (center bounds : List ℚ) :
    (childGeom i center bounds).1.length = min center.length bounds.length ∧
    (childGeom i center bounds).2.length = min center.length bounds.length :=
  childGeomAux_len i center bounds 0

theorem childGeom_len_eq (i n : Nat) (center bounds : List ℚ)
    (hc : center.length = n) (hb : bounds.length = n) :
    (childGeom i center bounds).1.length = n ∧
    (childGeom i center bounds).2.length = n := by
  obtain ⟨h1, h2⟩ := childGeom_len i center bounds
  rw [h1, h2, hc, hb]
  omega

theorem treePointsChildren_nil_of_fresh :
    ∀ (l : List (Option NTree)),
      (∀ oc ∈ l, ∃ cc cb, oc = some (.mk cc cb none [] 0)) →
      treePointsChildren l = [] := by
  intro l
  induction l with
  | nil => intro _; rfl
  | cons oc rest ih =>
    intro h
    obtain ⟨cc, cb, hoc⟩ := h oc (List.mem_cons_self oc rest)
    rw [hoc, treePointsChildren_cons, ih fun x hx => h x (List.mem_cons_of_mem oc hx)]
    rfl

theorem wfChildren_of_fresh (n : Nat) (center bounds : List ℚ)
    (hc : center.length = n) (hb : bounds.length = n) :
    ∀ (l : List (Option NTree)),
      (∀ oc ∈ l, ∃ j, oc = some (.mk (childGeom j center bounds).1
        (childGeom j center bounds).2 none [] 0)) →
      wfChildren n l = true := by
  intro l
  induction l with
  | nil => intro _; rfl
  | cons oc rest ih =>
    intro h
    obtain ⟨j, hoc⟩ := h oc (List.mem_cons_self oc rest)
    obtain ⟨hl1, hl2⟩ := childGeom_len_eq j n center bounds hc hb
    rw [hoc]
    simp only [wfChildren, Bool.and_eq_true]
    refine ⟨?_, ih fun x hx => h x (List.mem_cons_of_mem oc hx)⟩
    simp [wfB, wfChildren, hl1, hl2]

theorem countsChildren_of_fresh :
    ∀ (l : List (Option NTree)),
      (∀ oc ∈ l, ∃ cc cb, oc = some (.mk cc cb none [] 0)) →
      countsChildren l = true := by
  intro l
  induction l with
  | nil => intro _; rfl
  | cons oc rest ih =>
    intro h
    obtain ⟨cc, cb, hoc⟩ := h oc (List.mem_cons_self oc rest)
    rw [hoc]
    simp only [countsChildren, Bool.and_eq_true]
    exact ⟨rfl, ih fun x hx => h x (List.mem_cons_of_mem oc hx)⟩

theorem wfChildren_get (n : Nat) :
    ∀ (l : List (Option NTree)) (i : Nat) (oc : Option NTree),
      wfChildren n l = true → l.get? i = some oc →
      ∃ c, oc = some c ∧ wfB n c = true := by
  intro l
  induction l with
  | nil => intro i oc _ hg; simp at hg
  | cons o rest ih =>
    intro i oc hw hg
    cases o with
    | none => simp [wfChildren] at hw
    | some c =>
      simp only [wfChildren, Bool.and_eq_true] at hw
      cases i with
      | zero =>
        refine ⟨c, ?_, hw.1⟩
        simp only [List.get?] at hg
        exact (Option.some.inj hg).symm
      | succ m =>
        simp only [List.get?] at hg
        exact ih m oc hw.2 hg

theorem countsChildren_get :
    ∀ (l : List (Option NTree)) (i : Nat) (c : NTree),
      countsChildren l = true → l.get? i = some (some c) →
      countsB c = true := by
  intro l
  induction l with
  | nil => intro i c _ hg; simp at hg
  | cons o rest ih =>
    intro i c hw hg
    cases i with
    | zero =>
      simp only [List.get?] at hg
      cases o with
      | none => exact Option.noConfusion (Option.some.inj hg)
      | some c0 =>
        simp only [countsChildren, Bool.and_eq_true] at hw
        cases Option.some.inj (Option.some.inj hg)
        exact hw.1
    | succ m =>
      simp only [List.get?] at hg
      cases o with
      | none => exact ih m c hw hg
      | some c0 =>
        simp only [countsChildren, Bool.and_eq_true] at hw
        exact ih m c hw.2 hg

theorem wfChildren_set (n : Nat) :
    ∀ (l : List (Option NTree)) (i : Nat) (c2 : NTree),
      wfChildren n l = true → wfB n c2 = true →
      wfChildren n (l.set i (some c2)) = true := by
  intro l
  induction l with
  | nil => intro i c2 _ _; rfl
  | cons o rest ih =>
    intro i c2 hw hc2
    cases o with
    | none => simp [wfChildren] at hw
    | some c =>
      simp only [wfChildren, Bool.and_eq_true] at hw
      cases i with
      | zero =>
        simp only [List.set, wfChildren, Bool.and_eq_true]
        exact ⟨hc2, hw.2⟩
      | succ m =>
        simp only [List.set, wfChildren, Bool.and_eq_true]
        exact ⟨hw.1, ih m c2 hw.2 hc2⟩

theorem countsChildren_set :
    ∀ (l : List (Option NTree)) (i : Nat) (c2 : NTree),
      countsChildren l = true → countsB c2 = true →
      countsChildren (l.set i (some c2)) = true := by
  intro l
  induction l with
  | nil => intro i c2 _ _; rfl
  | cons o rest ih =>
    intro i c2 hw hc2
    cases i with
    | zero =>
      cases o with
      | none =>
        simp only [List.set, countsChildren, Bool.and_eq_true]
        exact ⟨hc2, hw⟩
      | some c =>
        simp only [countsChildren, Bool.and_eq_true] at hw
        simp only [List.set, countsChildren, Bool.and_eq_true]
        exact ⟨hc2, hw.2⟩
    | succ m =>
      cases o with
      | none =>
        simp only [List.set, countsChildren]
        exact ih m c2 hw hc2
      | some c =>
        simp only [countsChildren, Bool.and_eq_true] at hw
        simp only [List.set, countsChildren, Bool.and_eq_true]
        exact ⟨hw.1, ih m c2 hw.2 hc2⟩

theorem treePointsChildren_set_perm (q : Point) :
    ∀ (l : List (Option NTree)) (i : Nat) (child child2 : NTree),
      l.get? i = some (some child) →
      (treePoints child2).Perm (q :: treePoints child) →
      (treePointsChildren (l.set i (some child2))).Perm
        (q :: treePointsChildren l) := by
  intro l
  induction l with
  | nil => intro i child child2 hg _; simp at hg
  | cons o rest ih =>
    intro i child child2 hg hp
    cases i with
    | zero =>
      simp only [List.get?] at hg
      cases Option.some.inj hg
      simp only [List.set, treePointsChildren_cons]
      exact hp.append_right (treePointsChildren rest)
    | succ m =>
      simp only [List.get?] at hg
      cases o with
      | none =>
        simp only [List.set, treePointsChildren_cons]
        exact ih m child child2 hg hp
      | some c =>
        simp only [List.set, treePointsChildren_cons]
        exact ((ih m child child2 hg hp).append_left (treePoints c)).trans
          List.perm_middle

theorem treePoints_of_ne_nil (c b : List ℚ) (pt : Option Point)
    (ch : List (Option NTree)) (cnt : Nat) (h : ch ≠ []) :
    treePoints (.mk c b pt ch cnt) = treePointsChildren ch := by
  cases ch with
  | nil => exact absurd rfl h
  | cons c0 crest => exact treePoints_internal c b pt c0 crest cnt

theorem treePoints_none_of_children_empty (c b : List ℚ)
    (ch : List (Option NTree)) (cnt : Nat) (h : treePointsChildren ch = []) :
    treePoints (.mk c b none ch cnt) = [] := by
  cases ch with
  | nil => rfl
  | cons c0 crest => rw [treePoints_internal]; exact h

theorem some_pair_none_inj {A : Type} {x y : A} {e : Option String}
    (h : some (x, e) = some (y, (none : Option String))) : x = y ∧ e = none := by
  injection h with h
  exact ⟨congrArg Prod.fst h, congrArg Prod.snd h⟩

/-- Everything a successful insertion guarantees, in one induction: the
containment check passed, the stored multiset grows by exactly the inserted
point, the node's own geometry is untouched, well-formedness and exact
counts are preserved, and the node's count strictly increases. -/
theorem add_ok_facts (fuel : Nat) :
    ∀ (t : NTree) (q : Point) (t2 : NTree),
      add fuel t (some q) = some (t2, none) →
      contains t (some q) = .ok true ∧
      (treePoints t2).Perm (q :: treePoints t) ∧
      t2.center = t.center ∧ t2.bounds = t.bounds ∧
      (∀ n, wfB n t = true → wfB n t2 = true) ∧
      (countsB t = true → countsB t2 = true ∧ t2.count = t.count + 1) ∧
      t.count < t2.count := by
  induction fuel with
  | zero => intro t q t2 h; simp [add] at h
  | succ fu ih =>
    intro t q t2 h
    rcases t with ⟨center, bounds, pt, ch, cnt⟩
    rcases ch with _ | ⟨c0, crest⟩
    · rcases pt with _ | curP
      · -- empty leaf (ntree.go lines 162-168)
        simp only [add] at h
        split at h
        · exact absurd ((some_pair_none_inj h).2) (by simp)
        · exact absurd ((some_pair_none_inj h).2) (by simp)
        · next heq =>
          obtain ⟨h1, -⟩ := some_pair_none_inj h
          subst h1
          obtain ⟨hlen, -⟩ := contains_ok_facts _ _ _ heq
          refine ⟨heq, ?_, rfl, rfl, ?_, ?_, ?_⟩
          · rw [treePoints_leaf_some, treePoints_leaf_none]
          · intro n hw
            simp only [wfB, Bool.and_eq_true, beq_iff_eq] at hw ⊢
            obtain ⟨⟨⟨ha, hb'⟩, -⟩, -⟩ := hw
            refine ⟨⟨⟨ha, hb'⟩, ?_⟩, rfl⟩
            simp only [NTree.N, NTree.center] at hlen
            simp [Option.all, hlen, ha]
          · intro hct
            simp only [countsB, countsChildren, treePoints_leaf_some,
              treePoints_leaf_none, Bool.and_eq_true, beq_iff_eq,
              List.length_nil, List.length_cons, and_true, true_and] at hct ⊢
            simp only [NTree.count]
            exact ⟨by omega, trivial⟩
          · simp only [NTree.count]
            omega
      · -- occupied leaf: split (ntree.go lines 184-219)
        simp only [add] at h
        split at h
        · exact absurd ((some_pair_none_inj h).2) (by simp)
        · exact absurd ((some_pair_none_inj h).2) (by simp)
        · next heq =>
          split at h
          · exact absurd ((some_pair_none_inj h).2) (by simp)
          · next hsp =>
            split at h
            · exact Option.noConfusion h
            · exact absurd ((some_pair_none_inj h).2) (by simp)
            · next tm hadd =>
              rcases hal : (allocLoop center bounds 0 (splitSize center.length)).2
                with _ | e
              · have hspEq := splitAlloc_ok center bounds (some curP) [] cnt hal
                have hadd2 : add fu (.mk center bounds none
                    (allocLoop center bounds 0 (splitSize center.length)).1
                    (cnt - 1)) (some curP) = some (tm, none) := by
                  rw [hspEq] at hadd; exact hadd
                have hfresh : ∀ oc ∈ (allocLoop center bounds 0
                    (splitSize center.length)).1,
                    ∃ j, oc = some (.mk (childGeom j center bounds).1
                      (childGeom j center bounds).2 none [] 0) :=
                  fun oc hm =>
                    allocLoop_ok_mem center bounds (splitSize center.length) 0 oc hal hm
                have hfresh2 : ∀ oc ∈ (allocLoop center bounds 0
                    (splitSize center.length)).1,
                    ∃ cc cb, oc = some (.mk cc cb none [] 0) := by
                  intro oc hm
                  obtain ⟨j, hj⟩ := hfresh oc hm
                  exact ⟨_, _, hj⟩
                have htpc : treePointsChildren (allocLoop center bounds 0
                    (splitSize center.length)).1 = [] :=
                  treePointsChildren_nil_of_fresh _ hfresh2
                have htp1 : treePoints (.mk center bounds none
                    (allocLoop center bounds 0 (splitSize center.length)).1
                    (cnt - 1)) = [] :=
                  treePoints_none_of_children_empty _ _ _ _ htpc
                obtain ⟨hcon1, hperm1, hcen1, hb1, hwf1, hcnt1, hlt1⟩ := ih _ _ _ hadd2
                obtain ⟨hcon2, hperm2, hcen2, hb2, hwf2, hcnt2, hlt2⟩ := ih _ _ _ h
                refine ⟨heq, ?_, ?_, ?_, ?_, ?_, ?_⟩
                · have h3 : (treePoints tm).Perm [curP] := by
                    rw [htp1] at hperm1; exact hperm1
                  rw [treePoints_leaf_some]
                  exact hperm2.trans (h3.cons q)
                · rw [hcen2, hcen1]; rfl
                · rw [hb2, hb1]; rfl
                · intro n hw
                  apply hwf2
                  apply hwf1
                  simp only [wfB, Bool.and_eq_true, beq_iff_eq] at hw ⊢
                  obtain ⟨⟨⟨ha, hb'⟩, -⟩, -⟩ := hw
                  exact ⟨⟨⟨ha, hb'⟩, rfl⟩,
                    wfChildren_of_fresh n center bounds ha hb' _ hfresh⟩
                · intro hct
                  simp only [countsB, countsChildren, treePoints_leaf_some,
                    Bool.and_eq_true, beq_iff_eq, List.length_cons,
                    List.length_nil, and_true] at hct
                  have hcnts1 : countsB (.mk center bounds none
                      (allocLoop center bounds 0 (splitSize center.length)).1
                      (cnt - 1)) = true := by
                    simp only [countsB, Bool.and_eq_true, beq_iff_eq]
                    refine ⟨?_, countsChildren_of_fresh _ hfresh2⟩
                    rw [htp1]
                    simp only [List.length_nil, NTree.count]
                    omega
                  obtain ⟨hcb_tm, hc_tm⟩ := hcnt1 hcnts1
                  obtain ⟨hcb_t2, hc_t2⟩ := hcnt2 hcb_tm
                  refine ⟨hcb_t2, ?_⟩
                  simp only [NTree.count] at hc_tm hc_t2 ⊢
                  omega
                · simp only [NTree.count] at hlt1 hlt2 ⊢
                  omega
              · rw [splitAlloc_err center bounds (some curP) [] cnt e hal] at hsp
                exact absurd hsp (by simp)
    · -- internal node: recurse into the addressed child (ntree.go lines 169-183)
      simp only [add] at h
      split at h
      · exact absurd ((some_pair_none_inj h).2) (by simp)
      · exact absurd ((some_pair_none_inj h).2) (by simp)
      · next heq =>
        split at h
        · exact absurd ((some_pair_none_inj h).2) (by simp)
        · exact absurd ((some_pair_none_inj h).2) (by simp)
        · next child hget =>
          split at h
          · exact Option.noConfusion h
          · exact absurd ((some_pair_none_inj h).2) (by simp)
          · next child2 hadd =>
            obtain ⟨h1, -⟩ := some_pair_none_inj h
            subst h1
            obtain ⟨hcon1, hperm1, hcen1, hb1, hwf1, hcnt1, hlt1⟩ := ih _ _ _ hadd
            have hsetperm := treePointsChildren_set_perm q (c0 :: crest)
              (childIndex center q.coords) child child2 hget hperm1
            have hne : (c0 :: crest).set (childIndex center q.coords)
                (some child2) ≠ [] := by
              intro hcon
              have := congrArg List.length hcon
              simp [List.length_set] at this
            have htp2 : treePoints (.mk center bounds pt
                ((c0 :: crest).set (childIndex center q.coords) (some child2))
                (cnt + 1)) = treePointsChildren ((c0 :: crest).set
                (childIndex center q.coords) (some child2)) :=
              treePoints_of_ne_nil _ _ _ _ _ hne
            have hpermAll : (treePoints (.mk center bounds pt
                ((c0 :: crest).set (childIndex center q.coords) (some child2))
                (cnt + 1))).Perm
                (q :: treePoints (.mk center bounds pt (c0 :: crest) cnt)) := by
              rw [htp2, treePoints_internal]
              exact hsetperm
            refine ⟨heq, hpermAll, rfl, rfl, ?_, ?_, ?_⟩
            · intro n hw
              simp only [wfB, Bool.and_eq_true, beq_iff_eq] at hw ⊢
              obtain ⟨⟨⟨ha, hb'⟩, hpt⟩, hwch⟩ := hw
              obtain ⟨c', hc'eq, hc'wf⟩ := wfChildren_get n (c0 :: crest) _ _ hwch hget
              cases Option.some.inj hc'eq
              exact ⟨⟨⟨ha, hb'⟩, hpt⟩, wfChildren_set n _ _ _ hwch (hwf1 n hc'wf)⟩
            · intro hct
              simp only [countsB, Bool.and_eq_true, beq_iff_eq,
                treePoints_internal] at hct ⊢
              obtain ⟨hcl, hcch⟩ := hct
              have hcb_child : countsB child = true :=
                countsChildren_get _ _ _ hcch hget
              obtain ⟨hcb2, -⟩ := hcnt1 hcb_child
              have hlenEq := hpermAll.length_eq
              rw [htp2, treePoints_internal] at hlenEq
              simp only [List.length_cons] at hlenEq
              constructor
              · constructor
                · rw [treePoints_of_ne_nil _ _ _ _ _ hne] at *
                  omega
                · exact countsChildren_set _ _ _ hcch hcb2
              · simp only [NTree.count]
            · simp only [NTree.count]
              omega

/-- C3 amended: across completed operations a node's count never decreases —
every successful insertion strictly increases the count of the node it was
called on (and a failed one leaves it unchanged, per the C4 theorem); the
decrease exhibited by the counterexample happens only in the intermediate
published state inside a split. -/
theorem c3_count_increases_amended (fuel : Nat) (t : NTree) (p : Option Point)
    (t2 : NTree) (h : add fuel t p = some (t2, none)) : t.count < t2.count := by
  cases p with
  | none =>
    cases fuel with
    | zero => simp [add] at h
    | succ n =>
      simp only [add, contains] at h
      exact absurd ((some_pair_none_inj h).2) (by simp)
  | some q => exact (add_ok_facts fuel t q t2 h).2.2.2.2.2.2

theorem c3_count_increases_amended_witness : tLeaf1.count < tSplit.count :=
  c3_count_increases_amended 5 tLeaf1 (some qHigh) tSplit (by with_unfolding_all rfl)

/-- Facts accumulated over a whole sequence of successful insertions. -/
theorem addSeq_ok_facts (fuel : Nat) (ps : List Point) :
    ∀ (t t2 : NTree), addSeq fuel t ps = some (t2, none) →
      (treePoints t2).Perm (ps ++ treePoints t) ∧
      t2.center = t.center ∧ t2.bounds = t.bounds ∧
      (∀ n, wfB n t = true → wfB n t2 = true) ∧
      (countsB t = true → countsB t2 = true ∧ t2.count = t.count + ps.length) ∧
      (∀ q ∈ ps, inBoundsLoop t.center t.bounds q.coords = true ∧
        q.coords.length = t.center.length) := by
  induction ps with
  | nil =>
    intro t t2 h
    simp only [addSeq] at h
    obtain ⟨h1, -⟩ := some_pair_none_inj h
    subst h1
    exact ⟨by simp, rfl, rfl, fun n hw => hw, fun hc => ⟨hc, by simp⟩, by simp⟩
  | cons q qs ihq =>
    intro t t2 h
    simp only [addSeq] at h
    split at h
    · exact Option.noConfusion h
    · exact absurd ((some_pair_none_inj h).2) (by simp)
    · next tMid hadd =>
      obtain ⟨hcon, hperm, hcen, hbnd, hwf, hcnt, hlt⟩ := add_ok_facts fuel t q tMid hadd
      obtain ⟨ihperm, ihcen, ihbnd, ihwf, ihcnt, ihmem⟩ := ihq tMid t2 h
      obtain ⟨hql, hqin⟩ := contains_ok_facts t q true hcon
      refine ⟨?_, ?_, ?_, ?_, ?_, ?_⟩
      · exact (ihperm.trans (hperm.append_left qs)).trans List.perm_middle
      · rw [ihcen, hcen]
      · rw [ihbnd, hbnd]
      · intro n hw
        exact ihwf n (hwf n hw)
      · intro hc
        obtain ⟨hcMid, hcnteq⟩ := hcnt hc
        obtain ⟨hc2, hcnteq2⟩ := ihcnt hcMid
        refine ⟨hc2, ?_⟩
        rw [hcnteq2, hcnteq]
        simp only [List.length_cons]
        omega
      · intro q0 hq0
        rcases List.mem_cons.mp hq0 with h0 | h0
        · subst h0
          exact ⟨hqin, hql⟩
        · obtain ⟨hin, hlen⟩ := ihmem q0 h0
          rw [hcen, hbnd] at hin
          rw [hcen] at hlen
          exact ⟨hin, hlen⟩

theorem New_wf (center bounds : List ℚ) (t : NTree) (h : New center bounds = .ok t) :
    wfB center.length t = true ∧ countsB t = true ∧ treePoints t = [] ∧
    t.center = center ∧ t.bounds = bounds ∧ t.count = 0 := by
  obtain ⟨hsh, hlen, -, -, -⟩ := New_ok_facts center bounds t h
  subst hsh
  refine ⟨?_, rfl, rfl, rfl, rfl, rfl⟩
  simp [wfB, wfChildren, Option.all, hlen.symm]

mutual

/-- Because the pruning loop has no effect, Search on a well-formed tree is
exactly the filter of all stored points by the per-point range test. -/
theorem search_filter (n : Nat) :
    ∀ (t : NTree) (p1 p2 : List ℚ), wfB n t = true → p1.length = n →
      p2.length = n →
      search t p1 p2 =
        .ok ((treePoints t).filter fun q => pointInRange q.coords p1 p2)
  | .mk center bounds pt ch cnt, p1, p2, hw, h1, h2 => by
    have hc : center.length = n := by
      simp only [wfB, Bool.and_eq_true, beq_iff_eq] at hw
      exact hw.1.1.1
    have hdim : ¬(p1.length ≠ p2.length ∨ p2.length ≠ center.length) := by omega
    cases ch with
    | nil =>
      cases pt with
      | some q =>
        simp only [search, treePoints_leaf_some]
        rw [if_neg hdim]
        simp only [List.isEmpty_nil, if_true]
        cases hpr : pointInRange q.coords p1 p2 <;> simp [hpr, List.filter]
      | none =>
        simp only [search, treePoints_leaf_none]
        rw [if_neg hdim]
        simp [List.filter]
    | cons c0 crest =>
      have hwch : wfChildren n (c0 :: crest) = true := by
        simp only [wfB, Bool.and_eq_true] at hw
        exact hw.2
      simp only [search, treePoints_internal]
      rw [if_neg hdim]
      simp only [List.isEmpty_cons, if_false]
      exact searchChildren_filter n (c0 :: crest) p1 p2 hwch h1 h2
termination_by structural t => t

theorem searchChildren_filter (n : Nat) :
    ∀ (l : List (Option NTree)) (p1 p2 : List ℚ), wfChildren n l = true →
      p1.length = n → p2.length = n →
      searchChildren l p1 p2 =
        .ok ((treePointsChildren l).filter fun q => pointInRange q.coords p1 p2)
  | [], p1, p2, _, _, _ => by simp [searchChildren, treePointsChildren]
  | none :: rest, p1, p2, hw, _, _ => by simp [wfChildren] at hw
  | some c :: rest, p1, p2, hw, h1, h2 => by
    simp only [wfChildren, Bool.and_eq_true] at hw
    simp only [searchChildren]
    rw [search_filter n c p1 p2 hw.1 h1 h2,
      searchChildren_filter n rest p1 p2 hw.2 h1 h2]
    simp [treePointsChildren_cons, List.filter_append]
termination_by structural l => l

end

mutual

theorem wf_treePoints_len (n : Nat) :
    ∀ (t : NTree), wfB n t = true → ∀ q ∈ treePoints t, q.coords.length = n
  | .mk center bounds pt ch cnt => by
    intro hw q hq
    cases ch with
    | nil =>
      cases pt with
      | none => simp [treePoints_leaf_none] at hq
      | some q0 =>
        rw [treePoints_leaf_some] at hq
        simp only [List.mem_singleton] at hq
        subst hq
        simp only [wfB, Bool.and_eq_true, beq_iff_eq, Option.all] at hw
        exact hw.1.2
    | cons c0 crest =>
      rw [treePoints_internal] at hq
      have hwch : wfChildren n (c0 :: crest) = true := by
        simp only [wfB, Bool.and_eq_true] at hw
        exact hw.2
      exact wfChildren_treePoints_len n (c0 :: crest) hwch q hq
termination_by structural t => t

theorem wfChildren_treePoints_len (n : Nat) :
    ∀ (l : List (Option NTree)), wfChildren n l = true →
      ∀ q ∈ treePointsChildren l, q.coords.length = n
  | [] => by intro _ q hq; simp [treePointsChildren] at hq
  | none :: rest => by intro hw; simp [wfChildren] at hw
  | some c :: rest => by
    intro hw q hq
    simp only [wfChildren, Bool.and_eq_true] at hw
    rw [treePointsChildren_cons] at hq
    rcases List.mem_append.mp hq with h0 | h0
    · exact wf_treePoints_len n c hw.1 q h0
    · exact wfChildren_treePoints_len n rest hw.2 q h0
termination_by structural l => l

end

theorem pointInRange_true_iff :
    ∀ (xs p1 p2 : List ℚ), xs.length ≤ p1.length → xs.length ≤ p2.length →
      (pointInRange xs p1 p2 = true ↔
        ∀ i, i < xs.length →
          p1.getD i 0 ≤ xs.getD i 0 ∧ xs.getD i 0 ≤ p2.getD i 0) := by
  intro xs
  induction xs with
  | nil => intro p1 p2 _ _; simp [pointInRange]
  | cons x xs ih =>
    intro p1 p2 hl1 hl2
    cases p1 with
    | nil => simp at hl1
    | cons a la =>
      cases p2 with
      | nil => simp at hl2
      | cons b lb =>
        simp only [List.length_cons, Nat.succ_le_succ_iff] at hl1 hl2
        simp only [pointInRange]
        split
        · next hcond =>
          simp only [Bool.or_eq_true, decide_eq_true_eq] at hcond
          constructor
          · intro habs; exact absurd habs (by simp)
          · intro hall
            obtain ⟨hu, hv⟩ := hall 0 (by simp)
            simp only [List.getD_cons_zero] at hu hv
            rcases hcond with hlt | hgt
            · exact absurd hu (not_le.mpr hlt)
            · exact absurd hv (not_le.mpr hgt)
        · next hcond =>
          simp only [Bool.or_eq_true, decide_eq_true_eq, not_or] at hcond
          push_neg at hcond
          rw [ih la lb hl1 hl2]
          constructor
          · intro hall i hi
            cases i with
            | zero =>
              simp only [List.getD_cons_zero]
              exact ⟨hcond.1, hcond.2⟩
            | succ m =>
              simp only [List.getD_cons_succ]
              exact hall m (by simpa using hi)
          · intro hall i hi
            have := hall (i + 1) (by simpa using hi)
            simpa only [List.getD_cons_succ] using this

theorem pointInRange_false_of_bad (xs p1 p2 : List ℚ)
    (hx1 : xs.length ≤ p1.length) (hx2 : xs.length ≤ p2.length)
    (i : Nat) (hi : i < xs.length) (hbad : p2.getD i 0 < p1.getD i 0) :
    pointInRange xs p1 p2 = false := by
  by_contra habs
  have htrue : pointInRange xs p1 p2 = true := by
    cases h : pointInRange xs p1 p2
    · exact absurd h habs
    · rfl
  obtain ⟨hu, hv⟩ := (pointInRange_true_iff xs p1 p2 hx1 hx2).mp htrue i hi
  exact absurd (le_trans hu hv) (not_le.mpr hbad)

theorem inBounds_eq_pointInRange_zip :
    ∀ (c b x : List ℚ), x.length ≤ c.length → x.length ≤ b.length →
      inBoundsLoop c b x =
        pointInRange x (List.zipWith (fun cc bb => cc - bb) c b)
          (List.zipWith (fun cc bb => cc + bb) c b) := by
  intro c
  induction c with
  | nil =>
    intro b x h1 _
    cases x with
    | nil => rfl
    | cons xx xxs => simp at h1
  | cons cc ccs ih =>
    intro b x h1 h2
    cases b with
    | nil =>
      cases x with
      | nil => rfl
      | cons xx xxs => simp at h2
    | cons bb bbs =>
      cases x with
      | nil => rfl
      | cons xx xxs =>
        simp only [List.length_cons, Nat.succ_le_succ_iff] at h1 h2
        simp only [List.zipWith, inBoundsLoop, pointInRange, gt_iff_lt]
        rw [ih bbs xxs h1 h2]

theorem specInRange_eq_pointInRange (p1 p2 xs : List ℚ)
    (h1 : xs.length ≤ p1.length) (h2 : xs.length ≤ p2.length) :
    specInRange p1 p2 xs = pointInRange xs p1 p2 := by
  rw [Bool.eq_iff_iff, pointInRange_true_iff xs p1 p2 h1 h2]
  simp [specInRange]

/-- C1: for a tree built by a sequence of successful insertions into a
constructed root, and any query of the tree's dimensionality with
lower[i] <= upper[i], Search succeeds and returns exactly the inserted
points whose every coordinate lies in the closed box (a permutation of the
filtered insertion list: no omissions and no duplicates). -/
theorem c1_search_exact (center bounds : List ℚ) (t0 : NTree)
    (hnew : New center bounds = .ok t0) (fuel : Nat) (ps : List Point) (t : NTree)
    (hseq : addSeq fuel t0 ps = some (t, none)) (p1 p2 : List ℚ)
    (h1 : p1.length = center.length) (h2 : p2.length = center.length)
    (_hle : ∀ i, i < center.length → p1.getD i 0 ≤ p2.getD i 0) :
    ∃ l, search t p1 p2 = .ok l ∧
      l.Perm (ps.filter fun q => specInRange p1 p2 q.coords) := by
  obtain ⟨hwf0, hcts0, htp0, hcen0, hbnd0, hcnt0⟩ := New_wf center bounds t0 hnew
  obtain ⟨hperm, hcen, hbnd, hwf, hcnt, hmem⟩ := addSeq_ok_facts fuel ps t0 t hseq
  have hwft : wfB center.length t = true := hwf center.length hwf0
  refine ⟨_, search_filter center.length t p1 p2 hwft h1 h2, ?_⟩
  have hperm2 : (treePoints t).Perm ps := by
    have := hperm
    rw [htp0, List.append_nil] at this
    exact this
  have hfil := hperm2.filter (fun q => pointInRange q.coords p1 p2)
  have hcongr : (ps.filter fun q => pointInRange q.coords p1 p2)
      = ps.filter fun q => specInRange p1 p2 q.coords := by
    apply List.filter_congr
    intro q hq
    have hql : q.coords.length = center.length := by
      have h := (hmem q hq).2
      rw [hcen0] at h
      exact h
    rw [specInRange_eq_pointInRange p1 p2 q.coords (by omega) (by omega)]
  rw [hcongr] at hfil
  exact hfil

theorem c1_search_exact_witness :
    ∃ l, search tSplit [(0 : ℚ)] [1] = .ok l ∧
      l.Perm ([qLow, qHigh].filter fun q => specInRange [(0 : ℚ)] [1] q.coords) :=
  c1_search_exact [0] [1] root1 (by with_unfolding_all rfl) 5 [qLow, qHigh] tSplit
    (by with_unfolding_all rfl) [0] [1] rfl rfl
    (by
      intro i hi
      have h0 : i = 0 := by simpa using hi
      subst h0
      norm_num)

/-- C8: after M successful sequential insertions into a fresh root, the
root's count is exactly M and a search over the root's entire covered
volume (its BoundPoints corners) returns exactly M points. -/
theorem c8_count_and_fullsearch (center bounds : List ℚ) (t0 : NTree)
    (hnew : New center bounds = .ok t0) (fuel : Nat) (ps : List Point) (t : NTree)
    (hseq : addSeq fuel t0 ps = some (t, none)) :
    t.count = ps.length ∧
    ∃ l, search t t.boundPoints.1 t.boundPoints.2 = .ok l ∧
      l.length = ps.length := by
  obtain ⟨hwf0, hcts0, htp0, hcen0, hbnd0, hcnt0⟩ := New_wf center bounds t0 hnew
  obtain ⟨hperm, hcen, hbnd, hwf, hcnt, hmem⟩ := addSeq_ok_facts fuel ps t0 t hseq
  obtain ⟨-, hlenN, -, -, -⟩ := New_ok_facts center bounds t0 hnew
  have hwft : wfB center.length t = true := hwf center.length hwf0
  have hcen2 : t.center = center := by rw [hcen, hcen0]
  have hbnd2 : t.bounds = bounds := by rw [hbnd, hbnd0]
  obtain ⟨hctsT, hcountT⟩ := hcnt hcts0
  have hperm2 : (treePoints t).Perm ps := by
    have := hperm
    rw [htp0, List.append_nil] at this
    exact this
  have hbp : t.boundPoints =
      (List.zipWith (fun cc bb => cc - bb) center bounds,
       List.zipWith (fun cc bb => cc + bb) center bounds) := by
    simp [NTree.boundPoints, hcen2, hbnd2]
  have hbp1 : t.boundPoints.1.length = center.length := by
    rw [hbp]
    simp only [List.length_zipWith]
    omega
  have hbp2 : t.boundPoints.2.length = center.length := by
    rw [hbp]
    simp only [List.length_zipWith]
    omega
  refine ⟨?_, ?_⟩
  · rw [hcountT, hcnt0]
    omega
  · refine ⟨_, search_filter center.length t _ _ hwft hbp1 hbp2, ?_⟩
    have hall : ∀ q ∈ treePoints t,
        (pointInRange q.coords t.boundPoints.1 t.boundPoints.2) = true := by
      intro q hq
      have hqmem : q ∈ ps := hperm2.mem_iff.mp hq
      obtain ⟨hin, hlen⟩ := hmem q hqmem
      rw [hcen0] at hlen
      rw [hcen0, hbnd0] at hin
      rw [inBounds_eq_pointInRange_zip center bounds q.coords (by omega)
        (by omega)] at hin
      rw [hbp]
      exact hin
    rw [List.filter_eq_self.mpr hall]
    exact hperm2.length_eq

theorem c8_count_and_fullsearch_witness :
    tSplit.count = ([qLow, qHigh] : List Point).length ∧
    ∃ l, search tSplit tSplit.boundPoints.1 tSplit.boundPoints.2 = .ok l ∧
      l.length = ([qLow, qHigh] : List Point).length :=
  c8_count_and_fullsearch [0] [1] root1 (by with_unfolding_all rfl) 5
    [qLow, qHigh] tSplit (by with_unfolding_all rfl)

/-- C10: on a well-formed tree (as every tree built by New and Add is), a
query of the right dimensionality whose lower bound exceeds its upper bound
in some dimension makes Search return an empty result with no error. -/
theorem c10_inverted_query_empty (n : Nat) (t : NTree) (hw : wfB n t = true)
    (p1 p2 : List ℚ) (h1 : p1.length = n) (h2 : p2.length = n)
    (hbad : ∃ i, i < n ∧ p2.getD i 0 < p1.getD i 0) :
    search t p1 p2 = .ok [] := by
  rw [search_filter n t p1 p2 hw h1 h2]
  obtain ⟨i, hi, hlt⟩ := hbad
  have hnil : ((treePoints t).filter fun q => pointInRange q.coords p1 p2) = [] := by
    apply List.filter_eq_nil_iff.mpr
    intro q hq
    have hql : q.coords.length = n := wf_treePoints_len n t hw q hq
    simp only [Bool.not_eq_true]
    exact pointInRange_false_of_bad q.coords p1 p2 (by omega) (by omega) i
      (by omega) hlt
  rw [hnil]

theorem c10_inverted_query_empty_witness :
    search tSplit [(1 : ℚ)] [0] = .ok [] :=
  c10_inverted_query_empty 1 tSplit (by with_unfolding_all rfl) [1] [0] rfl rfl
    ⟨0, by omega, by norm_num⟩
